import Mathlib

/-!
Verification of the log-aggregation tool in main.go (parvit/aggregatelogs).

The Go source is shallowly embedded: bytes are naturals, file contents are
byte lists, reading a file yields an `Option` byte list (`none` = read
error), and the concurrent merge of one chunk is given a small-step
semantics driven by an explicit scheduler. Definitions come first, then
the theorems about them.
-/

/-- Bytes of file contents (Go `byte`). -/
abbrev Byte := Nat

/-! ### Filter engine: `LoadDataToWrite` (main.go lines 258-311) -/

/-- A compiled regex filter, modelled by the behaviour of Go's
`regexp.FindAllSubmatch(line, -1)`: for a line it yields the list of all
matches, each match being its submatch list (entry 0 is the whole match,
entries 1.. are the capture groups, an unmatched group being `[]`). -/
def LogFilter := List Byte → List (List (List Byte))

/-- `dropCR` of `bufio.ScanLines`: strip one trailing carriage return (13). -/
def dropCR (l : List Byte) : List Byte :=
  if l.getLast? = some 13 then l.dropLast else l

/-- One pass of `bufio.Scanner` with `bufio.ScanLines`: `cur` is the part of
the current line consumed so far. A newline byte (10) ends a token; at end of
input a nonempty remainder forms a final token; `dropCR` applies to every
token. -/
def scanLinesAux : List Byte → List Byte → List (List Byte)
  | cur, [] => if cur.isEmpty then [] else [dropCR cur]
  | cur, b :: rest =>
    if b = 10 then dropCR cur :: scanLinesAux [] rest
    else scanLinesAux (cur ++ [b]) rest

/-- The sequence of line tokens `scanner.Scan` / `scanner.Bytes` produces
for a fragment's bytes. -/
def scanLines (data : List Byte) : List (List Byte) := scanLinesAux [] data

/-- Bytes written for one match (main.go lines 293-305): a match without
captures contributes the whole match; a match with captures contributes
groups 1..n-1 joined by single spaces (32), the whole-match entry 0 being
skipped. -/
def writeMatch : List (List Byte) → List Byte
  | [] => []
  | [g] => g
  | _ :: g :: gs => List.intercalate [32] (g :: gs)

/-- Bytes one line contributes (main.go lines 282-307): each filter in
declaration order contributes its matches (nothing when it has none), then
one newline byte (10) is written unconditionally for the line. -/
def processLine (filters : List LogFilter) (line : List Byte) : List Byte :=
  (filters.map (fun flt =>
    let ms := flt line
    if ms.length < 1 then []
    else (ms.map writeMatch).flatten)).flatten ++ [10]

/-- `LoadDataToWrite` (main.go lines 258-311). The second argument is the
result of reading the fragment (`none` = read error). With no filters the
raw bytes are returned unmodified (fast path). Otherwise the output buffer
is `bytes.NewBuffer(make([]byte, 4096))`, so it starts with 4096 zero
bytes, and every scanned line appends its `processLine` contribution. -/
def LoadDataToWrite (filters : List LogFilter) :
    Option (List Byte) → Option (List Byte)
  | none => none
  | some data =>
    if filters.length < 1 then some data
    else some (List.replicate 4096 0 ++
      ((scanLines data).map (processLine filters)).flatten)

/-! ### Fragment scanner order-index extraction (main.go lines 131-147) -/

/-- Digits-only body of Go `strconv.Atoi`: a nonempty all-ASCII-digit
character list parses to its decimal value. -/
def parseNatDigits (cs : List Char) : Option Nat :=
  if cs.isEmpty then none
  else if cs.all Char.isDigit then
    some (cs.foldl (fun a c => 10 * a + (c.toNat - 48)) 0)
  else none

/-- Go `strconv.Atoi`: an optional sign followed by at least one digit
(64-bit range checking is outside the model; the filenames in play hold
small rotation indices). -/
def atoi (s : String) : Option Int :=
  match s.toList with
  | [] => none
  | c :: rest =>
    if c = '+' then (parseNatDigits rest).map (fun n => (n : Int))
    else if c = '-' then (parseNatDigits rest).map (fun n => -(n : Int))
    else (parseNatDigits (c :: rest)).map (fun n => (n : Int))

/-- The backward token scan of `ScanFolderForFiles` (main.go lines 140-146):
the argument is the loop counter `i`, which counts down while `i > 0`, so
token 0 (the base name) is never examined. -/
def extractOrderIndexAux (parts : List String) : Nat → Int
  | 0 => 0
  | i + 1 =>
    match atoi (parts.getD (i + 1) "") with
    | some v => v
    | none => extractOrderIndexAux parts i

/-- Order index of a filename already split on dots, as the scanner's loop
computes it starting from the last token. -/
def extractOrderIndex (parts : List String) : Int :=
  extractOrderIndexAux parts (parts.length - 1)

/-- Order index the scanner assigns to a discovered filename. -/
def scanOrderIndex (name : String) : Int :=
  extractOrderIndex (name.splitOn ".")

/-- Spec-side description of order-index extraction (spec section 4.2): scan
the dot-separated tokens from the last down to the second (index 1), take
the first one, scanning backward, that parses as an integer, and default
to 0 when none parses. -/
def specOrderIndex (parts : List String) : Int :=
  ((parts.drop 1).reverse.findSome? atoi).getD 0

/-! ### Data model and merge orchestration (main.go lines 24-48, 75-105,
155-203) -/

/-- One discovered fragment file (Go `logFile`). -/
structure logFile where
  index : Int
  name : String
deriving DecidableEq

/-- The run configuration (Go `Options`); `compiledFilters` holds the
already-compiled filter functions. -/
structure Options where
  input : String := "."
  reverse : Bool := false
  delete : Bool := false
  maxChunks : Int := 0
  compiledFilters : List LogFilter := []

/-- The comparator passed to `sort.Slice` by `MergeLogList`
(main.go lines 158-163). -/
def lessFn (cfg : Options) (a b : logFile) : Bool :=
  if cfg.reverse then decide (a.index ≤ b.index) else decide (a.index > b.index)

/-- The sort of `MergeLogList`: a deterministic realization of Go's
(unstable, unspecified-permutation) `sort.Slice` under `lessFn`. None of
the claims depend on which permutation the sort picks. -/
def sortLogFiles (cfg : Options) (list : List logFile) : List logFile :=
  List.insertionSort (fun a b => lessFn cfg a b = true) list

/-- Chunk slicing of `MergeLogList` (main.go lines 165-199), generic in the
element type. `outputFilesPerChunk` (written `l.length / maxChunks.toNat`
below) is the whole length when `maxChunks <= 1` (normalized to a single
chunk holding everything); otherwise it is the integer quotient, a quotient
below 2 aborts the group (no chunks at all), and a nonzero remainder adds
one more chunk. Chunk `k` is the slice `list[k*per : nextPos]` where
`nextPos = (k+1)*per` clamped down to the length (lines 195-199). -/
def chunkSlices {α : Type _} (maxChunks : Int) (l : List α) : List (List α) :=
  if maxChunks ≤ 1 then [l]
  else if l.length / maxChunks.toNat < 2 then []
  else
    (List.range
      (if l.length % maxChunks.toNat > 0 then maxChunks.toNat + 1
       else maxChunks.toNat)).map
      (fun k =>
        (l.drop (k * (l.length / maxChunks.toNat))).take
          ((if l.length ≤ (k + 1) * (l.length / maxChunks.toNat) then l.length
            else (k + 1) * (l.length / maxChunks.toNat))
            - k * (l.length / maxChunks.toNat)))

/-- The configuration mutation performed by `MergeLogList` (main.go lines
164-177) on the group of size `n`: `MaxChunks` is set to 1 when at most 1,
incremented by one when the group size does not divide evenly, and left
unchanged when the subdivision is infeasible (early error return). -/
def mergeLogListConfig (cfg : Options) (n : Nat) : Options :=
  if cfg.maxChunks ≤ 1 then { cfg with maxChunks := 1 }
  else if n / cfg.maxChunks.toNat < 2 then cfg
  else if n % cfg.maxChunks.toNat > 0 then
    { cfg with maxChunks := cfg.maxChunks + 1 }
  else cfg

/-- Output file naming (main.go lines 179-185): `base.full.log` for a
single-chunk run, `base.full.<k+1>.log` for chunk `k` of a multi-chunk
run (the loop reads `MaxChunks` after the mutation). -/
def outFileName (basename : String) (maxChunks : Int) (chunkIdx : Nat) : String :=
  if 1 < maxChunks then
    String.intercalate "." [basename, "full", toString (chunkIdx + 1), "log"]
  else String.intercalate "." [basename, "full", "log"]

/-- Denotation of `MergeLogList` (main.go lines 155-203): the mutated
configuration together with the output files (name, content) the chunk loop
creates. `loadOf` gives each fragment's loaded-and-filtered bytes; a chunk
file's content is their in-list-order concatenation, which is exactly what
`MergeLogChunk` writes when every load succeeds (theorem
`MergeLogChunk_ordered_output` below). -/
def MergeLogList (loadOf : logFile → List Byte) (cfg : Options)
    (basename : String) (list : List logFile) :
    Options × List (String × List Byte) :=
  let sorted := sortLogFiles cfg list
  let cfg2 := mergeLogListConfig cfg sorted.length
  let slices := chunkSlices cfg.maxChunks sorted
  (cfg2, slices.enum.map (fun p =>
    (outFileName basename cfg2.maxChunks p.1, (p.2.map loadOf).flatten)))

/-- Denotation of `MainRoutine` (main.go lines 75-105): nil options fail
with exit code 1; a directory-walk error fails with exit code 1; otherwise
every discovered group is merged with the SAME options value threaded
through (the Go code passes one `*Options` pointer to every call), and the
routine returns 0 together with all files produced. -/
def MainRoutine (loadOf : logFile → List Byte) (options : Option Options)
    (scan : Except String (List (String × List logFile))) :
    Nat × List (String × List Byte) :=
  match options with
  | none => (1, [])
  | some cfg =>
    match scan with
    | Except.error _ => (1, [])
    | Except.ok groups =>
      let res := groups.foldl (fun acc g =>
        let out := MergeLogList loadOf acc.1 g.1 g.2
        (out.1, acc.2 ++ out.2)) (cfg, ([] : List (String × List Byte)))
      (0, res.2)

/-! ### `MergeLogChunk` small-step semantics (main.go lines 205-256) -/

/-- The phase of one fragment's unit of work inside `MergeLogChunk`. -/
inductive UnitState where
  | pending
  | loaded (data : List Byte)
  | done
deriving DecidableEq

/-- The shared state of one `MergeLogChunk` call: the atomic
`currentWriteFileIndex` counter, the phase of every launched unit, and the
bytes written to the output file so far. -/
structure ChunkState where
  counter : Nat
  units : List UnitState
  output : List Byte
deriving DecidableEq

/-- One scheduler-chosen step of unit `i` (main.go lines 227-253). A
pending unit finishes its `LoadDataToWrite` call: on success
(`loads[i] = some d`) it now holds its buffer; on failure it returns
immediately WITHOUT touching the counter (lines 239-242). A unit holding
its buffer spins unless the counter equals its own list index, in which
case it writes its bytes and stores `index+1` into the counter (lines
245-252). Finished or out-of-range units do nothing. -/
def MergeLogChunkStep (loads : List (Option (List Byte))) (s : ChunkState)
    (i : Nat) : ChunkState :=
  match s.units.getD i UnitState.done with
  | UnitState.pending =>
    match loads.getD i none with
    | some d => { s with units := s.units.set i (UnitState.loaded d) }
    | none => { s with units := s.units.set i UnitState.done }
  | UnitState.loaded d =>
    if s.counter = i then
      { counter := i + 1, units := s.units.set i UnitState.done,
        output := s.output ++ d }
    else s
  | UnitState.done => s

/-- Initial state of a `MergeLogChunk` call: counter 0 (line 221) and one
pending unit per fragment of the chunk. -/
def MergeLogChunkInit (loads : List (Option (List Byte))) : ChunkState :=
  ⟨0, List.replicate loads.length UnitState.pending, []⟩

/-- Execution of a `MergeLogChunk` call under an explicit schedule listing
which unit acts at each step; ranging over all schedules covers every order
in which the concurrent loads can complete and write turns can be taken. -/
def MergeLogChunkRun (loads : List (Option (List Byte)))
    (sched : List Nat) : ChunkState :=
  sched.foldl (MergeLogChunkStep loads) (MergeLogChunkInit loads)

/-- Whether every launched unit has returned; `wg.Wait` (line 255) unblocks
exactly when this holds. -/
def allUnitsDone (s : ChunkState) : Bool :=
  s.units.all (fun u => u == UnitState.done)

/-- Protocol invariant of a `MergeLogChunk` execution: units below the
counter are finished successful writers whose bytes form the output in list
order; units at or above it are still pending, holding their loaded buffer,
or finished after a failed load. -/
def ChunkInv (loads : List (Option (List Byte))) (s : ChunkState) : Prop :=
  s.units.length = loads.length ∧
  s.counter ≤ loads.length ∧
  (∀ j, j < s.counter →
    s.units[j]? = some UnitState.done ∧ ∃ d, loads[j]? = some (some d)) ∧
  (∀ j, s.counter ≤ j → j < loads.length →
    s.units[j]? = some UnitState.pending ∨
    (∃ d, loads[j]? = some (some d) ∧
      s.units[j]? = some (UnitState.loaded d)) ∨
    (loads[j]? = some none ∧ s.units[j]? = some UnitState.done)) ∧
  s.output = ((loads.take s.counter).map (fun o => o.getD [])).flatten

/-! ### Concrete objects used by the closed statements below -/

/-- A concrete compiled filter that matches no line at all. -/
def noMatchFilter : LogFilter := fun _ => []

/-- Loads of a three-fragment chunk whose middle fragment fails to load. -/
def loadsWithFailure : List (Option (List Byte)) := [some [1], none, some [2]]

/-- Loads of a two-fragment chunk, both successful. -/
def loadsOK : List (Option (List Byte)) := [some [1, 2], some [3]]

/-- A schedule under which the second fragment finishes loading first. -/
def schedOK : List Nat := [1, 0, 1, 0, 1]

/-- Fragments with order indices `0..n-1` (names play no role here). -/
def mkFrags (n : Nat) : List logFile :=
  (List.range n).map (fun i => { index := (i : Int), name := "" })

/-- A requested four-way split. -/
def cfgFour : Options := { maxChunks := 4 }

/-- A requested five-way split. -/
def cfgFive : Options := { maxChunks := 5 }

/-- A loader that reads every fragment as its one index byte. -/
def loadIdx : logFile → List Byte := fun fr => [fr.index.toNat]

/-- A loader that reads every fragment as empty. -/
def loadZero : logFile → List Byte := fun _ => []

/-! ### Theorems: filter engine (claims C5, C8, C9) -/

lemma LoadDataToWrite_some (filters : List LogFilter) (data : List Byte) :
    LoadDataToWrite filters (some data) =
      if filters.length < 1 then some data
      else some (List.replicate 4096 0 ++
        ((scanLines data).map (processLine filters)).flatten) := rfl

/-- Claim C8: with an empty compiled filter set, `LoadDataToWrite` is the
identity transform on the fragment's bytes (whole-file fast path; a read
error passes through). -/
theorem LoadDataToWrite_no_filters_id (file : Option (List Byte)) :
    LoadDataToWrite [] file = file := by
  cases file <;> rfl

/-- Claim C9: with a non-empty filter set, the returned buffer begins with
the 4096 zero bytes of `bytes.NewBuffer(make([]byte, 4096))`, before any
filtered match content or newlines. -/
theorem LoadDataToWrite_starts_with_zero_block (filters : List LogFilter)
    (data : List Byte) (h : 0 < filters.length) :
    ∃ rest, LoadDataToWrite filters (some data) =
      some (List.replicate 4096 0 ++ rest) := by
  refine ⟨((scanLines data).map (processLine filters)).flatten, ?_⟩
  rw [LoadDataToWrite_some, if_neg (by omega)]

theorem LoadDataToWrite_starts_with_zero_block_witness :
    0 < [noMatchFilter].length ∧
      ∃ rest, LoadDataToWrite [noMatchFilter] (some [97]) =
        some (List.replicate 4096 0 ++ rest) :=
  ⟨by decide, LoadDataToWrite_starts_with_zero_block [noMatchFilter] [97] (by decide)⟩

lemma flatten_map_singleton (b : Byte) :
    ∀ xs : List (List Byte),
      (xs.map (fun _ => [b])).flatten = List.replicate xs.length b := by
  intro xs
  induction xs with
  | nil => rfl
  | cons x xs ih => simp [ih, List.replicate_succ]

/-- Claim C5 counterexample: with the single never-matching filter, a
fragment consisting of one line that matches nothing does not leave the
output unchanged with respect to the empty fragment: main.go line 307
writes the per-line newline unconditionally, so the non-matching line still
contributes one byte and the fragment does not yield empty output. -/
theorem LoadDataToWrite_no_match_line_adds_byte :
    LoadDataToWrite [noMatchFilter] (some [120, 121, 122]) ≠
      LoadDataToWrite [noMatchFilter] (some []) := by
  intro h
  have e1 : LoadDataToWrite [noMatchFilter] (some [120, 121, 122]) =
      some (List.replicate 4096 0 ++ [10]) := rfl
  have e2 : LoadDataToWrite [noMatchFilter] (some []) =
      some (List.replicate 4096 0 ++ []) := rfl
  rw [e1, e2] at h
  have h4 := congrArg List.length (Option.some.inj h)
  simp only [List.length_append, List.length_replicate, List.length_cons,
    List.length_nil] at h4
  omega

/-- Claim C5 amended: with a non-empty filter set, a line matching no
filter contributes no match text but does contribute the unconditional
per-line newline; a fragment all of whose lines match no filter yields the
4096-byte zero block followed by exactly one newline per line, not empty
output. -/
theorem LoadDataToWrite_no_match_newlines (filters : List LogFilter)
    (data : List Byte) (hne : 0 < filters.length)
    (hnm : (scanLines data).all
      (fun line => filters.all (fun flt => (flt line).isEmpty)) = true) :
    LoadDataToWrite filters (some data) =
      some (List.replicate 4096 0 ++
        List.replicate (scanLines data).length 10) := by
  rw [LoadDataToWrite_some, if_neg (by omega)]
  have hline : ∀ line ∈ scanLines data, processLine filters line = [10] := by
    intro line hmem
    have hflt : ∀ flt ∈ filters, (flt line) = [] := by
      intro flt hf
      have h1 := (List.all_eq_true.mp hnm) line hmem
      have h2 := (List.all_eq_true.mp h1) flt hf
      exact List.isEmpty_iff.mp h2
    unfold processLine
    have hmap : filters.map (fun flt =>
        let ms := flt line
        if ms.length < 1 then []
        else (ms.map writeMatch).flatten) =
        filters.map (fun _ => ([] : List Byte)) := by
      apply List.map_congr_left
      intro flt hf
      simp [hflt flt hf]
    rw [hmap]
    have hnil : (filters.map (fun _ => ([] : List Byte))).flatten = [] := by
      rw [List.flatten_eq_nil_iff]
      intro l hl
      rcases List.mem_map.mp hl with ⟨_, _, rfl⟩
      rfl
    rw [hnil]
    rfl
  have hmap2 : (scanLines data).map (processLine filters) =
      (scanLines data).map (fun _ => [10]) :=
    List.map_congr_left hline
  rw [hmap2, flatten_map_singleton]

theorem LoadDataToWrite_no_match_newlines_witness :
    0 < [noMatchFilter].length ∧
      ((scanLines [120, 10, 121]).all
        (fun line => [noMatchFilter].all (fun flt => (flt line).isEmpty)) = true) ∧
      LoadDataToWrite [noMatchFilter] (some [120, 10, 121]) =
        some (List.replicate 4096 0 ++
          List.replicate (scanLines [120, 10, 121]).length 10) :=
  ⟨by decide, by decide,
    LoadDataToWrite_no_match_newlines [noMatchFilter] [120, 10, 121]
      (by decide) (by decide)⟩

/-! ### Theorems: order-index extraction (claim C7) -/

lemma extractOrderIndexAux_eq (parts : List String) :
    ∀ i, i + 1 ≤ parts.length →
      extractOrderIndexAux parts i =
        (((parts.take (i + 1)).drop 1).reverse.findSome? atoi).getD 0 := by
  intro i
  induction i with
  | zero =>
    intro _
    have hnil : (parts.take 1).drop 1 = [] := by
      apply List.drop_eq_nil_of_le
      exact List.length_take_le 1 parts
    simp [extractOrderIndexAux, hnil]
  | succ i ih =>
    intro h
    have hlt : i + 1 < parts.length := by omega
    have hget : parts[i + 1]? = some parts[i + 1] := List.getElem?_eq_getElem hlt
    have htake : parts.take (i + 1 + 1) = parts.take (i + 1) ++ [parts[i + 1]] := by
      rw [List.take_succ, hget]
      rfl
    have hdrop : (parts.take (i + 1 + 1)).drop 1 =
        (parts.take (i + 1)).drop 1 ++ [parts[i + 1]] := by
      rw [htake, List.drop_append_of_le_length]
      simp [List.length_take]
      omega
    have hgetD : parts.getD (i + 1) "" = parts[i + 1] := by
      rw [List.getD_eq_getElem?_getD, hget]
      rfl
    rw [hdrop, List.reverse_append]
    simp only [List.reverse_cons, List.reverse_nil, List.nil_append,
      List.singleton_append, List.findSome?_cons]
    unfold extractOrderIndexAux
    rw [hgetD]
    cases hat : atoi parts[i + 1] with
    | some v => simp
    | none => simpa using ih (by omega)

/-- Claim C7: for every filename split into dot-separated tokens, the
scanner examines tokens from the last down to index 1 (never the base-name
token at index 0) and assigns as order index the first token, scanning
backward, that parses as an integer, defaulting to 0 when none does. -/
theorem scanOrderIndex_eq_spec (name : String) :
    scanOrderIndex name = specOrderIndex (name.splitOn ".") := by
  unfold scanOrderIndex extractOrderIndex specOrderIndex
  set parts := name.splitOn "." with hp
  rcases Nat.eq_zero_or_pos parts.length with h0 | hpos
  · have hnil : parts = [] := List.length_eq_zero.mp h0
    simp [hnil, extractOrderIndexAux]
  · have h1 : parts.length - 1 + 1 = parts.length := by omega
    rw [extractOrderIndexAux_eq parts (parts.length - 1) (by omega), h1,
      List.take_length]

/-! ### Theorems: chunk planner (claims C3, C4) -/

lemma take_add_seg {α : Type _} (l : List α) (a b : Nat) (hab : a ≤ b) :
    l.take a ++ (l.take b).drop a = l.take b := by
  conv_rhs => rw [← List.take_append_drop a (l.take b)]
  rw [List.take_take, inf_eq_left.mpr hab]

lemma flatten_chunkSegs {α : Type _} (l : List α) (per : Nat) :
    ∀ m, ((List.range m).map (fun k =>
      (l.drop (k * per)).take
        ((if l.length ≤ (k + 1) * per then l.length else (k + 1) * per)
          - k * per))).flatten
      = l.take (min (m * per) l.length) := by
  intro m
  induction m with
  | zero => simp
  | succ m ih =>
    rw [List.range_succ, List.map_append, List.flatten_append, ih]
    simp only [List.map_cons, List.map_nil, List.flatten_cons,
      List.flatten_nil, List.append_nil]
    have hmono : m * per ≤ (m + 1) * per := Nat.mul_le_mul_right per (by omega)
    have hE : (if l.length ≤ (m + 1) * per then l.length else (m + 1) * per)
        = min ((m + 1) * per) l.length := by
      split <;> omega
    rw [hE]
    rcases le_or_lt (m * per) l.length with hle | hlt
    · have hmin : min (m * per) l.length = m * per := by omega
      rw [hmin]
      have hseg : (l.drop (m * per)).take
          (min ((m + 1) * per) l.length - m * per) =
          (l.take (min ((m + 1) * per) l.length)).drop (m * per) := by
        rw [List.drop_take]
      rw [hseg]
      exact take_add_seg l (m * per) (min ((m + 1) * per) l.length) (by omega)
    · have h1 : min (m * per) l.length = l.length := by omega
      have h2 : min ((m + 1) * per) l.length = l.length := by omega
      have h3 : l.drop (m * per) = [] := List.drop_eq_nil_of_le (by omega)
      rw [h1, h2, List.take_length, h3]
      simp

lemma chunkSlices_flatten {α : Type _} (mc : Int) (l : List α) (hc : 1 < mc)
    (hper : 2 ≤ l.length / mc.toNat)
    (hrem : l.length % mc.toNat ≤ l.length / mc.toNat) :
    (chunkSlices mc l).flatten = l := by
  unfold chunkSlices
  rw [if_neg (by omega), if_neg (by omega)]
  rw [flatten_chunkSegs]
  have hdm := Nat.div_add_mod l.length mc.toNat
  rcases Nat.eq_zero_or_pos (l.length % mc.toNat) with hr0 | hrpos
  · rw [if_neg (by omega)]
    have hmin : min (mc.toNat * (l.length / mc.toNat)) l.length = l.length := by
      omega
    rw [hmin, List.take_length]
  · rw [if_pos (by omega)]
    have hmul : (mc.toNat + 1) * (l.length / mc.toNat) =
        mc.toNat * (l.length / mc.toNat) + l.length / mc.toNat := by ring
    have hmin : min ((mc.toNat + 1) * (l.length / mc.toNat)) l.length =
        l.length := by omega
    rw [hmin, List.take_length]

lemma chunkSlices_length_le {α : Type _} (mc : Int) (l : List α) (hc : 1 < mc) :
    ∀ s ∈ chunkSlices mc l, s.length ≤ l.length / mc.toNat := by
  intro s hs
  unfold chunkSlices at hs
  rw [if_neg (by omega)] at hs
  by_cases hper : l.length / mc.toNat < 2
  · rw [if_pos hper] at hs
    simp at hs
  · rw [if_neg hper] at hs
    rcases List.mem_map.mp hs with ⟨k, _, rfl⟩
    refine le_trans (List.length_take_le _ _) ?_
    have hmul : (k + 1) * (l.length / mc.toNat) =
        k * (l.length / mc.toNat) + l.length / mc.toNat := by ring
    split <;> omega

/-- Claim C4 counterexample (refutes the claim's existential part): there
is NO group size and chunk count, with `maxChunks > 1`, a feasible
`fragmentsPerChunk >= 2` and a nonzero remainder, for which the last chunk
holds more than `fragmentsPerChunk` fragments — the effective chunk count
is incremented instead, so the final chunk holds at most
`fragmentsPerChunk` fragments. -/
theorem chunkSlices_last_chunk_not_larger :
    ¬ ∃ (n c : Nat), 1 < c ∧ 2 ≤ n / c ∧ 0 < n % c ∧
      n / c < (((chunkSlices (c : Int) (List.range n)).getLast?).getD []).length := by
  rintro ⟨n, c, hc, hper, hrem, hlt⟩
  rcases hlast : (chunkSlices (c : Int) (List.range n)).getLast? with _ | s
  · rw [hlast] at hlt
    simp only [Option.getD_none, List.length_nil] at hlt
    omega
  · rw [hlast] at hlt
    simp only [Option.getD_some] at hlt
    have hmem : s ∈ chunkSlices (c : Int) (List.range n) := by
      rcases List.getLast?_eq_some_iff.mp hlast with ⟨ys, hys⟩
      rw [hys]
      simp
    have hle := chunkSlices_length_le (c : Int) (List.range n) (by omega) s hmem
    rw [Int.toNat_ofNat, List.length_range] at hle
    omega

/-- Claim C4 amended: for `maxChunks > 1` and `fragmentsPerChunk =
N / maxChunks >= 2`, the sub-range of the sorted list assigned to chunk
index `k` is `[k*f, min((k+1)*f, N))` as the claim's formula states; every
chunk holds at most `fragmentsPerChunk` fragments; and when
`N % maxChunks > 0` the effective chunk count is `maxChunks + 1` and the
final chunk holds exactly `min(fragmentsPerChunk, N % maxChunks)`
fragments — never more than `fragmentsPerChunk`. -/
theorem chunkSlices_ranges {α : Type _} (mc : Int) (l : List α) (hc : 1 < mc)
    (hper : 2 ≤ l.length / mc.toNat) :
    (∀ k, k < (chunkSlices mc l).length →
      (chunkSlices mc l)[k]? =
        some ((l.drop (k * (l.length / mc.toNat))).take
          (min ((k + 1) * (l.length / mc.toNat)) l.length
            - k * (l.length / mc.toNat)))) ∧
    (∀ s ∈ chunkSlices mc l, s.length ≤ l.length / mc.toNat) ∧
    (0 < l.length % mc.toNat →
      (chunkSlices mc l).length = mc.toNat + 1 ∧
      (((chunkSlices mc l).getLast?).getD []).length =
        min (l.length / mc.toNat) (l.length % mc.toNat)) := by
  refine ⟨?_, chunkSlices_length_le mc l hc, ?_⟩
  · intro k hk
    unfold chunkSlices at hk ⊢
    rw [if_neg (by omega), if_neg (by omega)] at hk ⊢
    rw [List.length_map, List.length_range] at hk
    rw [List.getElem?_map, List.getElem?_range hk, Option.map_some']
    congr 2
    split <;> omega
  · intro hr
    have hlen2 : (chunkSlices mc l).length = mc.toNat + 1 := by
      unfold chunkSlices
      rw [if_neg (by omega), if_neg (by omega)]
      rw [List.length_map, List.length_range, if_pos (by omega)]
    refine ⟨hlen2, ?_⟩
    rw [List.getLast?_eq_getElem?, hlen2]
    have hidx : mc.toNat + 1 - 1 = mc.toNat := by omega
    rw [hidx]
    unfold chunkSlices
    rw [if_neg (by omega), if_neg (by omega)]
    rw [List.getElem?_map, List.getElem?_range (by rw [if_pos (by omega)]; omega),
      Option.map_some', Option.getD_some]
    rw [List.length_take, List.length_drop]
    have hdm := Nat.div_add_mod l.length mc.toNat
    have hmul : (mc.toNat + 1) * (l.length / mc.toNat) =
        mc.toNat * (l.length / mc.toNat) + l.length / mc.toNat := by ring
    split <;> omega

theorem chunkSlices_ranges_witness :
    (1 : Int) < 4 ∧ 2 ≤ (List.range 11).length / (4 : Int).toNat ∧
      (0 < (List.range 11).length % (4 : Int).toNat →
        (chunkSlices 4 (List.range 11)).length = (4 : Int).toNat + 1 ∧
        (((chunkSlices 4 (List.range 11)).getLast?).getD []).length =
          min ((List.range 11).length / (4 : Int).toNat)
            ((List.range 11).length % (4 : Int).toNat)) :=
  ⟨by decide, by decide,
    (chunkSlices_ranges 4 (List.range 11) (by decide) (by decide)).2.2⟩

lemma sortLogFiles_length (cfg : Options) (list : List logFile) :
    (sortLogFiles cfg list).length = list.length :=
  (List.perm_insertionSort _ list).length_eq

lemma MergeLogList_outputs (loadOf : logFile → List Byte) (cfg : Options)
    (basename : String) (list : List logFile) :
    (MergeLogList loadOf cfg basename list).2.map Prod.snd =
      (chunkSlices cfg.maxChunks (sortLogFiles cfg list)).map
        (fun s => (s.map loadOf).flatten) := by
  unfold MergeLogList
  rw [List.map_map]
  have hcomp : (Prod.snd ∘ fun p : Nat × List logFile =>
      (outFileName basename
        (mergeLogListConfig cfg (sortLogFiles cfg list).length).maxChunks p.1,
        (p.2.map loadOf).flatten)) =
      ((fun s : List logFile => (s.map loadOf).flatten) ∘ Prod.snd) := rfl
  rw [hcomp, ← List.map_map, List.enum_map_snd]

lemma flatten_map_load {α β : Type _} (g : α → List β) :
    ∀ xss : List (List α),
      (xss.map (fun s => (s.map g).flatten)).flatten =
        (xss.flatten.map g).flatten := by
  intro xss
  induction xss with
  | nil => rfl
  | cons x xs ih =>
    simp only [List.map_cons, List.flatten_cons, List.map_append,
      List.flatten_append, ih]

/-- Claim C3 counterexample: with 11 fragments and requested maxChunks 4
(`fragmentsPerChunk = 2 >= 2`, remainder 3), the five produced chunk ranges
cover only the first 10 sorted fragments, so the concatenation of the chunk
outputs drops the last fragment's bytes and differs from the single-file
output of the `maxChunks <= 1` run over the same group. -/
theorem MergeLogList_chunk_concat_cex :
    ((MergeLogList loadIdx cfgFour "out" (mkFrags 11)).2.map Prod.snd).flatten ≠
      ((MergeLogList loadIdx { cfgFour with maxChunks := 1 } "out"
        (mkFrags 11)).2.map Prod.snd).flatten := by
  decide

/-- Claim C3 amended: for `maxChunks > 1` and `fragmentsPerChunk =
N / maxChunks >= 2`, and additionally `N % maxChunks <= N / maxChunks` (the
condition the counterexample shows is necessary), with every fragment load
succeeding, the concatenation of all chunk outputs in chunk-index order
equals the single output that `MergeLogList` produces for the same group
with `maxChunks <= 1`. -/
theorem MergeLogList_chunk_concat (loadOf : logFile → List Byte)
    (cfg : Options) (basename : String) (list : List logFile)
    (hc : 1 < cfg.maxChunks)
    (hper : 2 ≤ list.length / cfg.maxChunks.toNat)
    (hrem : list.length % cfg.maxChunks.toNat ≤
      list.length / cfg.maxChunks.toNat) :
    ((MergeLogList loadOf cfg basename list).2.map Prod.snd).flatten =
      ((MergeLogList loadOf { cfg with maxChunks := 1 } basename
        list).2.map Prod.snd).flatten := by
  rw [MergeLogList_outputs, MergeLogList_outputs]
  have hsort : sortLogFiles { cfg with maxChunks := 1 } list =
      sortLogFiles cfg list := rfl
  have hmc1 : ({ cfg with maxChunks := 1 } : Options).maxChunks = 1 := rfl
  rw [hsort, hmc1]
  have hone : chunkSlices (1 : Int) (sortLogFiles cfg list) =
      [sortLogFiles cfg list] := by
    unfold chunkSlices
    rw [if_pos (by omega)]
  rw [hone]
  simp only [List.map_cons, List.map_nil, List.flatten_cons,
    List.flatten_nil, List.append_nil]
  rw [flatten_map_load]
  have hlen := sortLogFiles_length cfg list
  rw [chunkSlices_flatten cfg.maxChunks (sortLogFiles cfg list) hc
    (by rw [hlen]; exact hper) (by rw [hlen]; exact hrem)]

theorem MergeLogList_chunk_concat_witness :
    (1 : Int) < cfgFive.maxChunks ∧
      2 ≤ (mkFrags 10).length / cfgFive.maxChunks.toNat ∧
      (mkFrags 10).length % cfgFive.maxChunks.toNat ≤
        (mkFrags 10).length / cfgFive.maxChunks.toNat ∧
      ((MergeLogList loadIdx cfgFive "out" (mkFrags 10)).2.map
        Prod.snd).flatten =
        ((MergeLogList loadIdx { cfgFive with maxChunks := 1 } "out"
          (mkFrags 10)).2.map Prod.snd).flatten :=
  ⟨by decide, by decide, by decide,
    MergeLogList_chunk_concat loadIdx cfgFive "out" (mkFrags 10)
      (by decide) (by decide) (by decide)⟩

/-! ### Theorems: `MainRoutine` exit behaviour (claim C6) -/

/-- Claim C6 counterexample: invoked with a non-nil default configuration
and the scan result of an existing empty input directory (a successful walk
finding no fragment group), `MainRoutine` returns exit code 0 — the
negation of the claimed non-zero failure code. -/
theorem MainRoutine_empty_dir_exit_zero :
    (MainRoutine loadZero (some ({} : Options)) (Except.ok [])).1 = 0 := rfl

/-- Claim C6 amended: with a non-nil configuration whose input path is an
existing empty directory (the walk succeeds and discovers no fragment
group), the run produces no output files and returns exit code 0
(success); only a failing directory walk yields the non-zero code. -/
theorem MainRoutine_empty_dir (loadOf : logFile → List Byte) (cfg : Options) :
    MainRoutine loadOf (some cfg) (Except.ok []) = (0, []) := rfl

/-! ### Theorems: configuration mutation (claim C10) -/

/-- Claim C10: `MergeLogList` mutates the shared run configuration — it
sets `MaxChunks` to 1 whenever `MaxChunks <= 1`, and increments it by one
whenever the (feasibly subdividable) group size is not evenly divisible by
it; `MainRoutine` threads the SAME options value through every group, so a
group processed later can observe a different `MaxChunks` than requested:
concretely, after an 11-fragment group under requested maxChunks 4
produces 5 files (leaving maxChunks at 5), a following 8-fragment group
produces no files at all, although merged alone under maxChunks 4 it
produces 4 files. -/
theorem MergeLogList_mutates_config :
    (∀ (loadOf : logFile → List Byte) (cfg : Options) (basename : String)
      (list : List logFile), cfg.maxChunks ≤ 1 →
        ((MergeLogList loadOf cfg basename list).1).maxChunks = 1) ∧
    (∀ (loadOf : logFile → List Byte) (cfg : Options) (basename : String)
      (list : List logFile), 1 < cfg.maxChunks →
        2 ≤ list.length / cfg.maxChunks.toNat →
        0 < list.length % cfg.maxChunks.toNat →
        ((MergeLogList loadOf cfg basename list).1).maxChunks =
          cfg.maxChunks + 1) ∧
    ((MainRoutine loadZero (some cfgFour)
        (Except.ok [("g1", mkFrags 11), ("g2", mkFrags 8)])).2.length = 5 ∧
      (MergeLogList loadZero cfgFour "g2" (mkFrags 8)).2.length = 4) := by
  refine ⟨?_, ?_, by decide, by decide⟩
  · intro loadOf cfg basename list h
    show (mergeLogListConfig cfg (sortLogFiles cfg list).length).maxChunks = 1
    unfold mergeLogListConfig
    rw [if_pos h]
  · intro loadOf cfg basename list hc hper hrem
    show (mergeLogListConfig cfg (sortLogFiles cfg list).length).maxChunks =
      cfg.maxChunks + 1
    have hlen := sortLogFiles_length cfg list
    unfold mergeLogListConfig
    rw [hlen, if_neg (by omega), if_neg (by omega), if_pos (by omega)]

theorem MergeLogList_mutates_config_witness :
    ((MergeLogList loadZero ({} : Options) "b" []).1).maxChunks = 1 ∧
      ((MergeLogList loadZero cfgFour "g1" (mkFrags 11)).1).maxChunks =
        cfgFour.maxChunks + 1 :=
  ⟨MergeLogList_mutates_config.1 loadZero {} "b" [] (by decide),
    MergeLogList_mutates_config.2.1 loadZero cfgFour "g1" (mkFrags 11)
      (by decide) (by decide) (by decide)⟩

/-! ### Theorems: ordered concurrent writing (claims C1, C2) -/

lemma getD_units_eq {units : List UnitState} {i : Nat} {u : UnitState}
    (h : units.getD i UnitState.done = u) (hne : u ≠ UnitState.done) :
    units[i]? = some u := by
  rw [List.getD_eq_getElem?_getD] at h
  rcases hq : units[i]? with _ | v
  · rw [hq] at h
    simp only [Option.getD_none] at h
    exact absurd h.symm hne
  · rw [hq] at h
    simp only [Option.getD_some] at h
    rw [h]

lemma getElem?_lt_length {α : Type _} {l : List α} {i : Nat} {a : α}
    (h : l[i]? = some a) : i < l.length := by
  rcases List.getElem?_eq_some_iff.mp h with ⟨hlt, _⟩
  exact hlt

lemma chunkInv_init (loads : List (Option (List Byte))) :
    ChunkInv loads (MergeLogChunkInit loads) := by
  unfold ChunkInv MergeLogChunkInit
  refine ⟨by simp, by simp, ?_, ?_, rfl⟩
  · intro j hj
    exact absurd hj (Nat.not_lt_zero j)
  · intro j _ hj
    left
    simp [List.getElem?_replicate, hj]

lemma chunkInv_step (loads : List (Option (List Byte))) (s : ChunkState)
    (i : Nat) (h : ChunkInv loads s) :
    ChunkInv loads (MergeLogChunkStep loads s i) := by
  obtain ⟨hlen, hcnt, hdone, hwait, hout⟩ := h
  unfold ChunkInv MergeLogChunkStep
  rcases hu : s.units.getD i UnitState.done with _ | d | _
  · -- the unit is pending and completes its load
    dsimp only
    have hui : s.units[i]? = some UnitState.pending := getD_units_eq hu (by simp)
    have hilt : i < s.units.length := getElem?_lt_length hui
    have hige : s.counter ≤ i := by
      by_contra hlt2
      have hdi := (hdone i (by omega)).1
      rw [hui] at hdi
      simp at hdi
    rcases hl : loads.getD i none with _ | d
    · -- failed load: the unit finishes without touching the counter
      dsimp only
      have hli : loads[i]? = some none := by
        rw [List.getD_eq_getElem?_getD] at hl
        rcases hq : loads[i]? with _ | v
        · have hge : loads.length ≤ i := List.getElem?_eq_none_iff.mp hq
          omega
        · rw [hq] at hl
          simp only [Option.getD_some] at hl
          rw [hl]
      refine ⟨by simp [List.length_set, hlen], hcnt, ?_, ?_, hout⟩
      · intro j hj
        rw [List.getElem?_set_ne (by omega)]
        exact hdone j hj
      · intro j hcj hjl
        by_cases hij : j = i
        · subst hij
          right; right
          exact ⟨hli, List.getElem?_set_self hilt⟩
        · rw [List.getElem?_set_ne (fun he => hij he.symm)]
          exact hwait j hcj hjl
    · -- successful load: the unit now holds its buffer
      dsimp only
      have hli : loads[i]? = some (some d) := by
        rw [List.getD_eq_getElem?_getD] at hl
        rcases hq : loads[i]? with _ | v
        · rw [hq] at hl
          simp at hl
        · rw [hq] at hl
          simp only [Option.getD_some] at hl
          rw [hl]
      refine ⟨by simp [List.length_set, hlen], hcnt, ?_, ?_, hout⟩
      · intro j hj
        rw [List.getElem?_set_ne (by omega)]
        exact hdone j hj
      · intro j hcj hjl
        by_cases hij : j = i
        · subst hij
          right; left
          exact ⟨d, hli, List.getElem?_set_self hilt⟩
        · rw [List.getElem?_set_ne (fun he => hij he.symm)]
          exact hwait j hcj hjl
  · -- the unit holds its buffer and spins or writes
    dsimp only
    have hui : s.units[i]? = some (UnitState.loaded d) := getD_units_eq hu (by simp)
    have hilt : i < s.units.length := getElem?_lt_length hui
    by_cases hci : s.counter = i
    · rw [if_pos hci]
      dsimp only
      have hli : loads[i]? = some (some d) := by
        rcases hwait i (le_of_eq hci) (by omega) with hp | ⟨d2, hl2, hu2⟩ | ⟨_, hu2⟩
        · rw [hui] at hp
          simp at hp
        · rw [hui] at hu2
          have hd2 : UnitState.loaded d = UnitState.loaded d2 :=
            Option.some.inj hu2
          have : d2 = d := by
            cases hd2
            rfl
          rw [← this]
          exact hl2
        · rw [hui] at hu2
          simp at hu2
      refine ⟨by simp [List.length_set, hlen], by omega, ?_, ?_, ?_⟩
      · intro j hj
        by_cases hij : j = i
        · subst hij
          exact ⟨List.getElem?_set_self hilt, d, hli⟩
        · have hji : j < s.counter := by omega
          rw [List.getElem?_set_ne (fun he => hij he.symm)]
          exact hdone j hji
      · intro j hcj hjl
        rw [List.getElem?_set_ne (by omega)]
        exact hwait j (by omega) hjl
      · show s.output ++ d =
          ((loads.take (i + 1)).map (fun o => o.getD [])).flatten
        rw [hout, hci, List.take_succ, hli]
        simp
    · rw [if_neg hci]
      exact ⟨hlen, hcnt, hdone, hwait, hout⟩
  · dsimp only
    exact ⟨hlen, hcnt, hdone, hwait, hout⟩

lemma chunkInv_run (loads : List (Option (List Byte))) (sched : List Nat) :
    ChunkInv loads (MergeLogChunkRun loads sched) := by
  unfold MergeLogChunkRun
  have haux : ∀ s, ChunkInv loads s →
      ChunkInv loads (sched.foldl (MergeLogChunkStep loads) s) := by
    induction sched with
    | nil => intro s hs; exact hs
    | cons a tl ih =>
      intro s hs
      exact ih _ (chunkInv_step loads s a hs)
  exact haux _ (chunkInv_init loads)

lemma allUnitsDone_getElem {s : ChunkState} (h : allUnitsDone s = true)
    {j : Nat} {u : UnitState} (hj : s.units[j]? = some u) :
    u = UnitState.done := by
  have hmem : u ∈ s.units := by
    rcases List.getElem?_eq_some_iff.mp hj with ⟨hlt, he⟩
    exact he ▸ List.getElem_mem hlt
  have hb := (List.all_eq_true.mp h) u hmem
  simpa using hb

/-- Claim C2: for every chunk and every schedule of load completions and
write turns under which every unit of work finishes (so `wg.Wait` returns),
with all loads succeeding, the bytes written to the output file equal the
sequential in-list-order concatenation of the fragments' loaded bytes —
the write order is independent of the load-completion order. -/
theorem MergeLogChunk_ordered_output (loads : List (Option (List Byte)))
    (sched : List Nat) (hall : ∀ o ∈ loads, o.isSome = true)
    (hdone : allUnitsDone (MergeLogChunkRun loads sched) = true) :
    (MergeLogChunkRun loads sched).output =
      (loads.map (fun o => o.getD [])).flatten := by
  have hinv := chunkInv_run loads sched
  unfold ChunkInv at hinv
  obtain ⟨hlen, hcnt, hdone2, hwait, hout⟩ := hinv
  have hc : (MergeLogChunkRun loads sched).counter = loads.length := by
    by_contra hne
    have hlt : (MergeLogChunkRun loads sched).counter < loads.length := by
      omega
    rcases hwait _ (le_refl _) hlt with hp | ⟨d, _, hu2⟩ | ⟨hl, _⟩
    · have := allUnitsDone_getElem hdone hp
      simp at this
    · have := allUnitsDone_getElem hdone hu2
      simp at this
    · have hmem : (none : Option (List Byte)) ∈ loads := by
        rcases List.getElem?_eq_some_iff.mp hl with ⟨hlt2, he⟩
        exact he ▸ List.getElem_mem hlt2
      have := hall _ hmem
      simp at this
  rw [hout, hc, List.take_length]

theorem MergeLogChunk_ordered_output_witness :
    (∀ o ∈ loadsOK, o.isSome = true) ∧
      allUnitsDone (MergeLogChunkRun loadsOK schedOK) = true ∧
      (MergeLogChunkRun loadsOK schedOK).output =
        (loadsOK.map (fun o => o.getD [])).flatten :=
  ⟨by decide, by decide,
    MergeLogChunk_ordered_output loadsOK schedOK (by decide) (by decide)⟩

/-- Claim C1 (code bug): on the failing loads — a three-fragment chunk
whose middle fragment's `LoadDataToWrite` errors — for EVERY schedule the
shared counter never passes 1, because the error path (main.go lines
239-242) returns without storing to the counter; consequently the chunk
never reaches the all-units-done state: the third fragment's unit spins
forever and `wg.Wait` never returns, contradicting the claim that the
counter advances exactly once per fragment regardless of failure. -/
theorem MergeLogChunk_failure_stalls (sched : List Nat) :
    (MergeLogChunkRun loadsWithFailure sched).counter ≤ 1 ∧
      allUnitsDone (MergeLogChunkRun loadsWithFailure sched) = false := by
  have hinv := chunkInv_run loadsWithFailure sched
  unfold ChunkInv at hinv
  obtain ⟨hlen, hcnt, hdone, hwait, hout⟩ := hinv
  have hc1 : (MergeLogChunkRun loadsWithFailure sched).counter ≤ 1 := by
    by_contra hgt
    rcases (hdone 1 (by omega)).2 with ⟨d, hd⟩
    have h1 : loadsWithFailure[1]? = some none := rfl
    rw [h1] at hd
    simp at hd
  refine ⟨hc1, ?_⟩
  cases hb : allUnitsDone (MergeLogChunkRun loadsWithFailure sched) with
  | false => rfl
  | true =>
    exfalso
    have hlenl : loadsWithFailure.length = 3 := rfl
    rcases hwait 2 (by omega) (by omega) with hp | ⟨d, hl, hu2⟩ | ⟨hl, _⟩
    · have := allUnitsDone_getElem hb hp
      simp at this
    · have := allUnitsDone_getElem hb hu2
      simp at this
    · have h2 : loadsWithFailure[2]? = some (some [2]) := rfl
      rw [h2] at hl
      simp at hl
